import Mathlib

/-!
Verification of the `sortedset` package (AVL-tree ordered set) of the
`collection` Go library.  The Go code is shallowly embedded: the `node`
struct becomes an inductive tree, pointer `nil` becomes the `nil`
constructor, and the in-place recursive mutation (which returns the new
subtree root and reassigns it into the parent slot) becomes ordinary
functional recursion.  Go `int` fields (`h`, `len`) are modelled as `Int`;
the comparator `func(v1, v2 interface pair) int` becomes `cmp : B -> B -> Int`.
The Go value slot has static type `interface` and is set to Go `nil` by
`(*node).clear`, so the value type `B` carries a distinguished element
`nilV` (in concrete instances `B := Option Int` and `nilV := none`).
-/

set_option autoImplicit false

namespace sortedset

/-- Embeds the Go struct `node`: a value slot, two child pointers and the
cached height `h` and cached subtree size `len`.  The `nil` constructor is
the nil pointer. -/
inductive node (B : Type) where
  | nil : node B
  | mk (value : B) (left right : node B) (h len : Int) : node B
  deriving DecidableEq, Repr

variable {B : Type}

/-- Embeds Go `height`: 0 for nil, else the cached field `h`. -/
def height : node B → Int
  | .nil => 0
  | .mk _ _ _ h _ => h

/-- Embeds Go `length`: 0 for nil, else the cached field `len`. -/
def length : node B → Int
  | .nil => 0
  | .mk _ _ _ _ k => k

/-- Embeds Go `maxInt`. -/
def maxInt (a b : Int) : Int :=
  if a > b then a else b

/-- Embeds Go `balance`: 0 for nil, else `height left - height right`. -/
def balance : node B → Int
  | .nil => 0
  | .mk _ l r _ _ => height l - height r

/-- Embeds Go `(*node).clear()`: every field is set to its zero value
(`nil` for the `interface` slot and the child pointers, 0 for `h`/`len`).
`nilV` is the zero value of the value type. -/
def clearedNode (nilV : B) : node B :=
  .mk nilV .nil .nil 0 0

/-- Embeds Go `leftRotate`.  The right child becomes the subtree root, its
former left child is reattached, and `h`/`len` are recomputed for the old
root first, then for the new root.  A nil `n.right` would be a Go nil
dereference; the fallthrough cases are unreachable at every call site
(they require a cached balance below -1, impossible with `height .nil = 0`). -/
def leftRotate : node B → node B
  | .nil => .nil
  | .mk v l .nil h k => .mk v l .nil h k
  | .mk v l (.mk rv rl rr _ _) _ _ =>
    let n := node.mk v l rl (1 + maxInt (height l) (height rl)) (1 + length l + length rl)
    node.mk rv n rr (1 + maxInt (height n) (height rr)) (1 + length n + length rr)

/-- Embeds Go `rightRotate`, the mirror image of `leftRotate`. -/
def rightRotate : node B → node B
  | .nil => .nil
  | .mk v .nil r h k => .mk v .nil r h k
  | .mk v (.mk lv ll lr _ _) r _ _ =>
    let n := node.mk v lr r (1 + maxInt (height lr) (height r)) (1 + length lr + length r)
    node.mk lv ll n (1 + maxInt (height ll) (height n)) (1 + length ll + length n)

/-- Embeds Go `min`: the leftmost node of a non-nil tree, nil for nil. -/
def min : node B → node B
  | .nil => .nil
  | .mk v .nil r h k => .mk v .nil r h k
  | .mk _ (.mk lv ll lr lh lk) _ _ _ => min (.mk lv ll lr lh lk)

/-- Embeds the shared tail of Go `pushRecursive` (recompute `h` and `len`
from the children, then rebalance; the rotation case is selected by
comparing the freshly inserted value `v` against the relevant child's
value).  Both descending branches of `pushRecursive` fall through to this
code in the source.  The inner nil matches are unreachable (a cached
balance above 1 forces a non-nil left child, and symmetrically). -/
def pushBalance (cmp : B → B → Int) (v : B) : node B → node B
  | .nil => .nil
  | .mk u l r _ _ =>
    let h := 1 + maxInt (height l) (height r)
    let k := 1 + length l + length r
    let n := node.mk u l r h k
    if balance n > 1 then
      match l with
      | .nil => n
      | .mk lv _ _ _ _ =>
        if cmp v lv < 0 then rightRotate n
        else rightRotate (.mk u (leftRotate l) r h k)
    else if balance n < -1 then
      match r with
      | .nil => n
      | .mk rv _ _ _ _ =>
        if cmp v rv > 0 then leftRotate n
        else leftRotate (.mk u l (rightRotate r) h k)
    else n

/-- Embeds Go `pushRecursive`: descend by comparator sign, create a leaf
with `h = len = 1` at a nil slot, replace the stored value in place on a
comparator tie (early return, no recompute), otherwise recompute and
rebalance via `pushBalance`. -/
def pushRecursive (cmp : B → B → Int) (v : B) : node B → node B
  | .nil => .mk v .nil .nil 1 1
  | .mk u l r h k =>
    if cmp v u < 0 then pushBalance cmp v (.mk u (pushRecursive cmp v l) r h k)
    else if cmp v u > 0 then pushBalance cmp v (.mk u l (pushRecursive cmp v r) h k)
    else .mk v l r h k

/-- Embeds the shared tail of Go `removeRecursive` (recompute `h` and
`len`, then rebalance; the rotation case is selected by the sign of the
child subtree's own balance).  The inner nil matches are unreachable for
the same reason as in `pushBalance`. -/
def removeBalance : node B → node B
  | .nil => .nil
  | .mk u l r _ _ =>
    let h := 1 + maxInt (height l) (height r)
    let k := 1 + length l + length r
    let n := node.mk u l r h k
    if balance n > 1 then
      if balance l ≥ 0 then rightRotate n
      else rightRotate (.mk u (leftRotate l) r h k)
    else if balance n < -1 then
      if balance r ≤ 0 then leftRotate n
      else leftRotate (.mk u l (rightRotate r) h k)
    else n

/-- Embeds Go `removeRecursive`.  On a comparator tie: with no child the
node is cleared and replaced by nil (early return, no recompute); with one
child the source copies the child's value into the node and then clears
the child IN PLACE — the child pointer is never unlinked, so the cleared
node (`clearedNode nilV`) remains in the tree; with two children the
in-order successor's value is copied in and that value is removed from the
right subtree.  Every non-early return goes through `removeBalance`. -/
def removeRecursive (nilV : B) (cmp : B → B → Int) (v : B) : node B → node B × Bool
  | .nil => (.nil, false)
  | .mk u l r h k =>
    if cmp v u < 0 then
      let p := removeRecursive nilV cmp v l
      (removeBalance (.mk u p.1 r h k), p.2)
    else if cmp v u > 0 then
      let p := removeRecursive nilV cmp v r
      (removeBalance (.mk u l p.1 h k), p.2)
    else
      match l with
      | .nil =>
        match r with
        | .nil => (.nil, true)
        | .mk rv _ _ _ _ => (removeBalance (.mk rv .nil (clearedNode nilV) h k), true)
      | .mk lv _ _ _ _ =>
        match r with
        | .nil => (removeBalance (.mk lv (clearedNode nilV) .nil h k), true)
        | .mk _ _ _ _ _ =>
          match min r with
          | .nil => (.mk u l r h k, true)
          | .mk tv _ _ _ _ =>
            (removeBalance (.mk tv l (removeRecursive nilV cmp tv r).1 h k), true)

/-- Embeds Go `containsRecursive`: descend by comparator sign, true on a
tie, false at a nil child. -/
def containsRecursive (cmp : B → B → Int) (v : B) : node B → Bool
  | .nil => false
  | .mk u l r _ _ =>
    if cmp v u < 0 then containsRecursive cmp v l
    else if cmp v u > 0 then containsRecursive cmp v r
    else true

/-- Companion of `containsRecursive` recording, in order, the stored
values that the comparator is applied against during the descent (the
source calls `compare(v, n.value)` once per visited node). -/
def containsCmpArgs (cmp : B → B → Int) (v : B) : node B → List B
  | .nil => []
  | .mk u l r _ _ =>
    u :: (if cmp v u < 0 then containsCmpArgs cmp v l
          else if cmp v u > 0 then containsCmpArgs cmp v r
          else [])

/-- Embeds Go `cloneRecursive`: rebuild every node with the same value,
children and cached fields. -/
def cloneRecursive : node B → node B
  | .nil => .nil
  | .mk v l r h k => .mk v (cloneRecursive l) (cloneRecursive r) h k

/-- Embeds Go `sliceRecursive`: in-order append into an accumulator slice. -/
def sliceRecursive : node B → List B → List B
  | .nil, values => values
  | .mk v l r _ _, values => sliceRecursive r (sliceRecursive l values ++ [v])

/-- Embeds Go `stringRecursive`: in-order concatenation of
`Sprintf("%v ", value)` renderings, where `fmtV` models the `%v` verb. -/
def stringRecursive (fmtV : B → String) : node B → String
  | .nil => ""
  | .mk v l r _ _ => stringRecursive fmtV l ++ (fmtV v ++ " ") ++ stringRecursive fmtV r

/-- Models the Go slice expression `str[:len(str)-1]` (drop the final
byte).  At its only use site the final character is the one-byte ASCII
space appended by `stringRecursive`, so dropping one byte is dropping one
character. -/
def chopLast (s : String) : String :=
  String.mk s.data.dropLast

/-- Embeds the Go struct `SortedSet` (one field: the root pointer). -/
structure SortedSet (B : Type) where
  root : node B
  deriving DecidableEq, Repr

/-- Embeds Go `New` (the zero value: a nil root). -/
def New : SortedSet B := ⟨.nil⟩

/-- Embeds Go `NewBySlice`: push every value in input order. -/
def NewBySlice (cmp : B → B → Int) (values : List B) : SortedSet B :=
  ⟨values.foldl (fun t v => pushRecursive cmp v t) .nil⟩

/-- Embeds Go `(*SortedSet).IsEmpty`. -/
def IsEmpty (s : SortedSet B) : Bool :=
  match s.root with
  | .nil => true
  | .mk _ _ _ _ _ => false

/-- Embeds Go `(*SortedSet).Len`: 0 when empty, else the root's cached
`len` field. -/
def Len (s : SortedSet B) : Int :=
  match s.root with
  | .nil => 0
  | .mk _ _ _ _ k => k

/-- Embeds Go `(*SortedSet).Push`. -/
def Push (cmp : B → B → Int) (v : B) (s : SortedSet B) : SortedSet B :=
  ⟨pushRecursive cmp v s.root⟩

/-- Embeds Go `(*SortedSet).Remove`: returns the updated set and the
removed flag. -/
def Remove (nilV : B) (cmp : B → B → Int) (v : B) (s : SortedSet B) : SortedSet B × Bool :=
  let p := removeRecursive nilV cmp v s.root
  (⟨p.1⟩, p.2)

/-- Embeds Go `(*SortedSet).Contains`. -/
def Contains (cmp : B → B → Int) (v : B) (s : SortedSet B) : Bool :=
  containsRecursive cmp v s.root

/-- Embeds Go `(*SortedSet).Clone`. -/
def Clone (s : SortedSet B) : SortedSet B :=
  ⟨cloneRecursive s.root⟩

/-- Embeds Go `(*SortedSet).RemoveAll`: discard the root. -/
def RemoveAll (_ : SortedSet B) : SortedSet B := ⟨.nil⟩

/-- Embeds Go `(*SortedSet).Slice`: in-order collection starting from an
empty slice. -/
def Slice (s : SortedSet B) : List B :=
  sliceRecursive s.root []

/-- Embeds Go `(*SortedSet).Min`: nil (modelled `none`) when empty, else
the leftmost value. -/
def MinValue (s : SortedSet B) : Option B :=
  match min s.root with
  | .nil => none
  | .mk v _ _ _ _ => some v

/-- Embeds Go `(*SortedSet).Max`: nil (modelled `none`) when empty, else
the rightmost value reached by the right-spine walk. -/
def MaxValue : SortedSet B → Option B :=
  fun s => maxWalk s.root
where
  maxWalk : node B → Option B
    | .nil => none
    | .mk v _ .nil _ _ => some v
    | .mk _ _ (.mk rv rl rr rh rk) _ _ => maxWalk (.mk rv rl rr rh rk)

/-- Embeds Go `(*SortedSet).String`: `"[]"` when empty, otherwise the
bracketed in-order rendering with the trailing space dropped. -/
def stringOf (fmtV : B → String) (s : SortedSet B) : String :=
  match s.root with
  | .nil => "[]"
  | .mk _ _ _ _ _ => chopLast ("[" ++ stringRecursive fmtV s.root) ++ "]"

/-! Analysis definitions: observation and invariant functions used to
state the claims.  They are stated over the embedded tree type. -/

/-- In-order sequence of stored values. -/
def inorder : node B → List B
  | .nil => []
  | .mk v l r _ _ => inorder l ++ v :: inorder r

/-- Shape of a tree: values erased, children and cached fields kept. -/
def strip : node B → node Unit
  | .nil => .nil
  | .mk _ l r h k => .mk () (strip l) (strip r) h k

/-- True (recursive) height of the tree, ignoring the cached fields. -/
def heightT : node B → Int
  | .nil => 0
  | .mk _ l r _ _ => 1 + maxInt (heightT l) (heightT r)

/-- True (recursive) node count of the tree, ignoring the cached fields. -/
def sizeT : node B → Int
  | .nil => 0
  | .mk _ l r _ _ => 1 + sizeT l + sizeT r

/-- Decidable check of the spec's BST invariant: at every node, all values
stored in the left subtree compare strictly below the node's value and all
values stored in the right subtree compare strictly above it. -/
def Bst (cmp : B → B → Int) : node B → Bool
  | .nil => true
  | .mk u l r _ _ =>
    ((inorder l).all fun w => decide (cmp w u < 0)) &&
    (((inorder r).all fun w => decide (cmp u w < 0)) &&
      (Bst cmp l && Bst cmp r))

/-- Decidable check that every cached `h` field equals one plus the max of
the children's cached `h` fields. -/
def heightsOk : node B → Bool
  | .nil => true
  | .mk _ l r h _ =>
    decide (h = 1 + maxInt (height l) (height r)) && (heightsOk l && heightsOk r)

/-- Decidable check that every cached `len` field equals one plus the sum
of the children's cached `len` fields. -/
def lensOk : node B → Bool
  | .nil => true
  | .mk _ l r _ k =>
    decide (k = 1 + length l + length r) && (lensOk l && lensOk r)

/-- Decidable check that every node's cached balance lies in -1..1. -/
def balOk : node B → Bool
  | .nil => true
  | .mk _ l r _ _ =>
    decide (-1 ≤ height l - height r) && (decide (height l - height r ≤ 1) &&
      (balOk l && balOk r))

/-- Decidable check that every cached `h` field equals the true height
computed from the node structure (the spec's height invariant). -/
def heightsOkTrue : node B → Bool
  | .nil => true
  | .mk _ l r h _ =>
    decide (h = 1 + maxInt (heightT l) (heightT r)) && (heightsOkTrue l && heightsOkTrue r)

/-- Decidable check that every cached `len` field equals the true node
count of its subtree (the spec's size invariant). -/
def sizesOkTrue : node B → Bool
  | .nil => true
  | .mk _ l r _ k =>
    decide (k = 1 + sizeT l + sizeT r) && (sizesOkTrue l && sizesOkTrue r)

/-- Decidable check of the spec's AVL balance invariant on TRUE heights:
at every node the true heights of the children differ by at most 1. -/
def balancedT : node B → Bool
  | .nil => true
  | .mk _ l r _ _ =>
    decide (-1 ≤ heightT l - heightT r) && (decide (heightT l - heightT r ≤ 1) &&
      (balancedT l && balancedT r))

/-- Decidable check that a list is strictly ascending under the
comparator (adjacent pairs compare negative). -/
def ascChain (cmp : B → B → Int) : List B → Bool
  | [] => true
  | [_] => true
  | a :: b :: rest => decide (cmp a b < 0) && ascChain cmp (b :: rest)

/-- Comparator consistent with a strict total order (the spec's
comparator contract): opposite signs under argument swap, and weak
transitivity of the nonpositive sign. -/
structure IsTotalCmp (B : Type) (cmp : B → B → Int) : Prop where
  asymm : ∀ a b, cmp a b < 0 ↔ 0 < cmp b a
  le_trans : ∀ a b c, cmp a b ≤ 0 → cmp b c ≤ 0 → cmp a c ≤ 0

/-! Spec-side definitions for the refinement claim about rotation-case
selection.  These two functions are written from the spec's words, to be
compared with the source-derived `pushBalance` and `removeBalance`. -/

/-- Recomputation of the cached fields from the children, the step the
spec places immediately before rebalancing ("recompute height and size
from children"). -/
def recompute : node B → node B
  | .nil => .nil
  | .mk u l r _ _ => .mk u l r (1 + maxInt (height l) (height r)) (1 + length l + length r)

/-- Written from the spec: after an insert, compute
`balance = height(left) - height(right)`; if left-heavy (balance above 1)
apply a single right rotation when the inserted value compares below
`left.value`, otherwise left-rotate the left child and then right-rotate;
mirrored for right-heavy with the tie-break against `right.value`; no
rotation otherwise. -/
def insertRebalanceSpec (cmp : B → B → Int) (v : B) (n : node B) : node B :=
  let b := balance n
  if 1 < b then
    match n with
    | .nil => .nil
    | .mk u l r h k =>
      match l with
      | .nil => .mk u l r h k
      | .mk lv _ _ _ _ =>
        if cmp v lv < 0 then rightRotate (.mk u l r h k)
        else rightRotate (.mk u (leftRotate l) r h k)
  else if b < -1 then
    match n with
    | .nil => .nil
    | .mk u l r h k =>
      match r with
      | .nil => .mk u l r h k
      | .mk rv _ _ _ _ =>
        if 0 < cmp v rv then leftRotate (.mk u l r h k)
        else leftRotate (.mk u l (rightRotate r) h k)
  else n

/-- Written from the spec: after a removal, rebalance by the subtree
balance sign (there is no freshly inserted value to compare): left-heavy
with `balance(left) >= 0` gives a single right rotation, left-heavy with
`balance(left) < 0` gives a left rotation of the left child followed by a
right rotation; mirrored for right-heavy. -/
def removeRebalanceSpec : node B → node B
  | .nil => .nil
  | .mk u l r h k =>
    let b := balance (node.mk u l r h k)
    if 1 < b then
      if 0 ≤ balance l then rightRotate (.mk u l r h k)
      else rightRotate (.mk u (leftRotate l) r h k)
    else if b < -1 then
      if balance r ≤ 0 then leftRotate (.mk u l r h k)
      else leftRotate (.mk u l (rightRotate r) h k)
    else .mk u l r h k

/-! Addressed model for the clone claim.  Go's `&node` literal in
`cloneRecursive` allocates a fresh node; to state that the clone shares no
node with the original, nodes carry an allocation address and allocation
is modelled by a counter. -/

/-- Tree of addressed nodes: the `node` struct together with the address
of its allocation. -/
inductive anode (B : Type) where
  | nil : anode B
  | mk (addr : Nat) (value : B) (left right : anode B) (h len : Int) : anode B
  deriving DecidableEq, Repr

/-- Forgets the addresses, recovering the plain embedded tree. -/
def eraseA : anode B → node B
  | .nil => .nil
  | .mk _ v l r h k => .mk v (eraseA l) (eraseA r) h k

/-- Addresses of all nodes of an addressed tree. -/
def addrsA : anode B → List Nat
  | .nil => []
  | .mk a _ l r _ _ => a :: (addrsA l ++ addrsA r)

/-- Embeds Go `cloneRecursive` over addressed nodes: clone the children,
then allocate a fresh node (`&node` literal, fresh address from the
counter) carrying the same value and cached fields. -/
def cloneRecursiveA : anode B → Nat → anode B × Nat
  | .nil, c => (.nil, c)
  | .mk _ v l r h k, c =>
    let pl := cloneRecursiveA l c
    let pr := cloneRecursiveA r pl.2
    (.mk pr.2 v pl.1 pr.1 h k, pr.2 + 1)

/-! String-format helpers for the String claim. -/

/-- Characters of the given strings joined by single separating spaces:
no separator for the empty list, no trailing space. -/
def sepBySpace : List String → List Char
  | [] => []
  | [s] => s.data
  | s :: s2 :: rest => s.data ++ ' ' :: sepBySpace (s2 :: rest)

/-- Characters of the given strings, each with one trailing space. -/
def joinTrail : List String → List Char
  | [] => []
  | s :: rest => s.data ++ ' ' :: joinTrail rest

/-! Concrete instances used by counterexamples and witnesses.  The value
type is `Option Int`: pushed values are `some k`, and `none` is the Go
`nil` written into the value slot by `clear` (the zero value of the
`interface` type).  The comparator is total on the whole carrier (a Go
caller may handle nil), ordering `none` below every `some k`; on pushed
values it is exactly the repo's `compareInt` (`v1 - v2`). -/

/-- Integer comparator lifted to `Option Int` with `none` smallest: a
valid strict-total-order comparator on the whole carrier. -/
def ocmp : Option Int → Option Int → Int
  | none, none => 0
  | none, some _ => -1
  | some _, none => 1
  | some a, some b => a - b

/-- Tree obtained by `Push 1; Push 2` (root 1 with right child 2). -/
def t12 : node (Option Int) :=
  pushRecursive ocmp (some 2) (pushRecursive ocmp (some 1) .nil)

/-- Tree obtained by `Push 1; Push 2; Remove 1`: the removal hits the
one-child case at the root. -/
def z1 : node (Option Int) :=
  (removeRecursive none ocmp (some 1) t12).1

/-- Tree obtained by `Push 4; Push 2; Push 5; Push 1`. -/
def t4251 : node (Option Int) :=
  pushRecursive ocmp (some 1) (pushRecursive ocmp (some 5)
    (pushRecursive ocmp (some 2) (pushRecursive ocmp (some 4) .nil)))

/-- Tree obtained from `t4251` by `Remove 2` (a one-child removal) and
then `Remove 5` (a leaf removal). -/
def t4b : node (Option Int) :=
  (removeRecursive none ocmp (some 5) (removeRecursive none ocmp (some 2) t4251).1).1

/-- Comparator on pairs ordering by the first component only (`none`
smallest): a valid total-order comparator under which distinct values can
compare equal, so an in-place update by `Push` is observable. -/
def pcmp : Option (Int × Int) → Option (Int × Int) → Int
  | none, none => 0
  | none, some _ => -1
  | some _, none => 1
  | some a, some b => a.1 - b.1

/-- Concrete three-node search tree over pair values. -/
def tP : node (Option (Int × Int)) :=
  .mk (some (2, 0)) (.mk (some (1, 0)) .nil .nil 1 1) (.mk (some (3, 0)) .nil .nil 1 1) 2 3

/-- Concrete addressed tree (addresses 0, 1, 2). -/
def taP : anode (Option Int) :=
  .mk 2 (some 2) (.mk 0 (some 1) .nil .nil 1 1) (.mk 1 (some 3) .nil .nil 1 1) 2 3

/-- Concrete renderer for `Option Int` values standing for the `%v` verb. -/
def fmtOI : Option Int → String
  | none => "<nil>"
  | some k => toString k

/-! Derived facts about valid comparators. -/

theorem cmp_eq_symm {B : Type} {cmp : B → B → Int} (hc : IsTotalCmp B cmp)
    {a b : B} (h : cmp a b = 0) : cmp b a = 0 := by
  have h1 := hc.asymm a b
  have h2 := hc.asymm b a
  omega

theorem cmp_eq_of_le_le {B : Type} {cmp : B → B → Int} (hc : IsTotalCmp B cmp)
    {a b : B} (h1 : cmp a b ≤ 0) (h2 : cmp b a ≤ 0) : cmp a b = 0 := by
  have h3 := hc.asymm a b
  omega

theorem cmp_lt_trans {B : Type} {cmp : B → B → Int} (hc : IsTotalCmp B cmp)
    {a b c : B} (h1 : cmp a b < 0) (h2 : cmp b c < 0) : cmp a c < 0 := by
  have h3 := hc.le_trans a b c (le_of_lt h1) (le_of_lt h2)
  rcases lt_or_eq_of_le h3 with h4 | h4
  · exact h4
  · exfalso
    have h5 := cmp_eq_symm hc h4
    have h6 := hc.le_trans c a b (le_of_eq h5) (le_of_lt h1)
    have h7 := (hc.asymm b c).mp h2
    omega

theorem cmp_eq_lt_trans {B : Type} {cmp : B → B → Int} (hc : IsTotalCmp B cmp)
    {a b c : B} (h1 : cmp a b = 0) (h2 : cmp b c < 0) : cmp a c < 0 := by
  have h3 := hc.le_trans a b c (le_of_eq h1) (le_of_lt h2)
  rcases lt_or_eq_of_le h3 with h4 | h4
  · exact h4
  · exfalso
    have h5 := cmp_eq_symm hc h4
    have h6 := hc.le_trans c a b (le_of_eq h5) (le_of_eq h1)
    have h7 := (hc.asymm b c).mp h2
    omega

theorem cmp_lt_eq_trans {B : Type} {cmp : B → B → Int} (hc : IsTotalCmp B cmp)
    {a b c : B} (h1 : cmp a b < 0) (h2 : cmp b c = 0) : cmp a c < 0 := by
  have h3 := hc.le_trans a b c (le_of_lt h1) (le_of_eq h2)
  rcases lt_or_eq_of_le h3 with h4 | h4
  · exact h4
  · exfalso
    have h5 := cmp_eq_symm hc h4
    have h6 := hc.le_trans b c a (le_of_eq h2) (le_of_eq h5)
    have h7 := (hc.asymm a b).mp h1
    omega

theorem cmp_eq_trans {B : Type} {cmp : B → B → Int} (hc : IsTotalCmp B cmp)
    {a b c : B} (h1 : cmp a b = 0) (h2 : cmp b c = 0) : cmp a c = 0 := by
  have h3 := hc.le_trans a b c (le_of_eq h1) (le_of_eq h2)
  have h4 := hc.le_trans c b a (le_of_eq (cmp_eq_symm hc h2)) (le_of_eq (cmp_eq_symm hc h1))
  exact cmp_eq_of_le_le hc h3 h4

/-- Validity of the concrete comparator `ocmp`. -/
theorem ocmp_total : IsTotalCmp (Option Int) ocmp := by
  constructor
  · intro a b
    cases a <;> cases b <;> simp [ocmp] <;> omega
  · intro a b c
    cases a <;> cases b <;> cases c <;> simp [ocmp] <;> omega

/-- Validity of the concrete pair comparator `pcmp`. -/
theorem pcmp_total : IsTotalCmp (Option (Int × Int)) pcmp := by
  constructor
  · intro a b
    cases a <;> cases b <;> simp [pcmp] <;> omega
  · intro a b c
    cases a <;> cases b <;> cases c <;> simp [pcmp] <;> omega

/-- Claim C1.  Removing a value stored at a node with one child does NOT
splice the node out: after `Push 1; Push 2` the root (value 1) has the
single child 2; `Remove 1` returns true, but the source only copies the
child's value into the root and clears the child in place, leaving the
cleared node linked.  The resulting in-order sequence is `[2, nil]` (with
an extra cleared slot), not the previous sequence with 1 deleted. -/
theorem remove_one_child_not_spliced :
    removeRecursive none ocmp (some 1) t12 =
      (node.mk (some 2) .nil (.mk none .nil .nil 0 0) 1 1, true) ∧
    Slice ⟨z1⟩ = [some 2, none] ∧
    Slice ⟨z1⟩ ≠ [some 2] ∧
    Len ⟨z1⟩ = 1 ∧
    Contains ocmp (some 1) ⟨z1⟩ = false := by
  decide

/-- Claim C2.  After the mutation sequence `Push 1; Push 2; Remove 1`
(valid total-order comparator `ocmp`), the in-order traversal is
`[2, nil]`: it contains the extraneous entry `none`, which was never
pushed, it is not strictly ascending under the comparator, and the BST
property fails at the root. -/
theorem inorder_has_extraneous_entry :
    Slice ⟨z1⟩ = [some 2, none] ∧
    ascChain ocmp (Slice ⟨z1⟩) = false ∧
    (none ∈ [some (1 : Int), some 2]) = False ∧
    Bst ocmp z1 = false := by
  refine ⟨by decide, by decide, by simp, by decide⟩

/-- Claim C3.  After `Push 1; Push 2; Remove 1` the cached fields are
wrong for the true structure: the root caches `len = 1` and `h = 1` while
its subtree physically holds 2 nodes and has height 2 (the cleared child
caches `h = len = 0` while being a real node), so `Len` (1) differs from
the number of stored values (2). -/
theorem cached_size_height_fail :
    sizesOkTrue z1 = false ∧
    heightsOkTrue z1 = false ∧
    Len ⟨z1⟩ = 1 ∧
    sizeT z1 = 2 ∧
    (Slice ⟨z1⟩).length = 2 := by
  decide

/-- Claim C4.  After the mutation sequence `Push 4; Push 2; Push 5;
Push 1; Remove 2; Remove 5` (valid comparator), the root violates the AVL
balance condition on true heights: its left subtree (node 1 plus the
cleared node left behind by `Remove 2`) has true height 2 while its right
subtree is empty, because the rebalancing decisions read the corrupted
cached heights. -/
theorem avl_true_balance_fails :
    t4b = node.mk (some 4) (.mk (some 1) (.mk none .nil .nil 0 0) .nil 1 1) .nil 2 2 ∧
    balancedT t4b = false ∧
    heightT t4b = 3 ∧
    height t4b = 2 := by
  decide

/-- Claim C5.  After `Push 1; Push 2; Remove 1`, the query
`Contains 3` walks through the cleared node and applies the comparator to
its `nil` value — a value never inserted (with the repo's own `compareInt`
this is a nil type assertion, i.e. a panic).  `containsCmpArgs` lists the
stored values the comparator is applied against during the descent. -/
theorem comparator_applied_to_cleared_value :
    containsCmpArgs ocmp (some 3) z1 = [some 2, none] ∧
    (none ∈ containsCmpArgs ocmp (some 3) z1) ∧
    (none ∈ [some (1 : Int), some 2]) = False ∧
    Contains ocmp (some 3) ⟨z1⟩ = false := by
  refine ⟨by decide, by decide, by simp, by decide⟩

/-- Claim C8.  `Remove 3` on the set left by `Push 1; Push 2; Remove 1`
returns false (no value compares equal to 3), yet the set is changed: the
descent through the cleared node rewrites cached `h`/`len` fields, and the
observable `Len` goes from 1 to 2. -/
theorem remove_false_changes_set :
    (removeRecursive none ocmp (some 3) z1).2 = false ∧
    (removeRecursive none ocmp (some 3) z1).1 ≠ z1 ∧
    Len ⟨(removeRecursive none ocmp (some 3) z1).1⟩ = 2 ∧
    Len ⟨z1⟩ = 1 := by
  decide

/-- Claim C7.  The rebalancing step of the source selects its rotation
case exactly as the spec describes at each call site: the insert path
(`pushBalance`, the shared tail of `pushRecursive`) agrees with
`insertRebalanceSpec` (tie-break by comparing the inserted value against
the child's value) after recomputing the cached fields, and the removal
path (`removeBalance`, the shared tail of `removeRecursive`) agrees with
`removeRebalanceSpec` (case chosen by the child subtree's balance sign). -/
theorem rebalance_cases_match_spec (B : Type) (cmp : B → B → Int) :
    (∀ (v : B) (n : node B), pushBalance cmp v n = insertRebalanceSpec cmp v (recompute n)) ∧
    (∀ n : node B, removeBalance n = removeRebalanceSpec (recompute n)) := by
  constructor
  · intro v n
    cases n with
    | nil => rfl
    | mk u l r h k => rfl
  · intro n
    cases n with
    | nil => rfl
    | mk u l r h k => rfl

/-! Clone lemmas. -/

theorem cloneRecursive_eq {B : Type} (t : node B) : cloneRecursive t = t := by
  induction t with
  | nil => rfl
  | mk v l r h k ihl ihr => simp [cloneRecursive, ihl, ihr]

theorem cloneA_counter_le {B : Type} : ∀ (t : anode B) (c : Nat), c ≤ (cloneRecursiveA t c).2 := by
  intro t
  induction t with
  | nil => intro c; exact le_refl c
  | mk a v l r h k ihl ihr =>
    intro c
    have h1 := ihl c
    have h2 := ihr (cloneRecursiveA l c).2
    simp only [cloneRecursiveA]
    omega

theorem cloneA_addrs_ge {B : Type} :
    ∀ (t : anode B) (c : Nat) (a : Nat), a ∈ addrsA (cloneRecursiveA t c).1 → c ≤ a := by
  intro t
  induction t with
  | nil => intro c a ha; simp [cloneRecursiveA, addrsA] at ha
  | mk a0 v l r h k ihl ihr =>
    intro c a ha
    simp only [cloneRecursiveA, addrsA, List.mem_cons, List.mem_append] at ha
    have h1 := cloneA_counter_le l c
    have h2 := cloneA_counter_le r (cloneRecursiveA l c).2
    rcases ha with ha | ha | ha
    · omega
    · exact ihl c a ha
    · have := ihr (cloneRecursiveA l c).2 a ha
      omega

theorem cloneA_erase {B : Type} :
    ∀ (t : anode B) (c : Nat), eraseA (cloneRecursiveA t c).1 = eraseA t := by
  intro t
  induction t with
  | nil => intro c; rfl
  | mk a v l r h k ihl ihr =>
    intro c
    simp only [cloneRecursiveA, eraseA, ihl, ihr]

/-- Claim C9.  `Clone` returns a tree structurally identical to the
original (in the functional embedding, litterally equal: same shape, same
values, same cached `h` and `len` at every position; the empty set clones
to the empty set).  In the addressed model, where Go's `&node` literal is
a fresh allocation from a counter, the clone consists entirely of nodes at
fresh addresses, so it shares no node with any tree allocated earlier:
mutations through one root cannot reach the other tree's nodes, which is
the full-independence part of the claim. -/
theorem clone_identical_and_independent :
    (∀ (B : Type) (s : SortedSet B), Clone s = s) ∧
    (∀ (B : Type) (ta : anode B) (c : Nat), eraseA (cloneRecursiveA ta c).1 = eraseA ta) ∧
    (∀ (B : Type) (ta : anode B) (c : Nat), (∀ a ∈ addrsA ta, a < c) →
      ∀ b ∈ addrsA (cloneRecursiveA ta c).1, b ∉ addrsA ta) := by
  refine ⟨?_, ?_, ?_⟩
  · intro B s
    cases s with
    | mk root => simp [Clone, cloneRecursive_eq]
  · intro B ta c
    exact cloneA_erase ta c
  · intro B ta c hlt b hb hmem
    have h1 := cloneA_addrs_ge ta c b hb
    have h2 := hlt b hmem
    omega

/-- Witness for claim C9 at a concrete addressed tree (addresses 0, 1, 2,
counter 5): the address 6 allocated for the clone does not occur in the
original, and cloning preserves the erased tree. -/
theorem clone_identical_and_independent_witness :
    (6 : Nat) ∉ addrsA taP ∧ eraseA (cloneRecursiveA taP 5).1 = eraseA taP := by
  constructor
  · exact clone_identical_and_independent.2.2 (Option Int) taP 5 (by decide) 6 (by decide)
  · exact clone_identical_and_independent.2.1 (Option Int) taP 5

/-! Unfolding lemmas for the invariant checkers at a non-nil node. -/

theorem bst_mk_iff {B : Type} {cmp : B → B → Int} {u : B} {l r : node B} {h k : Int} :
    Bst cmp (node.mk u l r h k) = true ↔
      (∀ w ∈ inorder l, cmp w u < 0) ∧ (∀ w ∈ inorder r, cmp u w < 0) ∧
      Bst cmp l = true ∧ Bst cmp r = true := by
  simp [Bst, List.all_eq_true, Bool.and_eq_true]

theorem heightsOk_mk_iff {B : Type} {u : B} {l r : node B} {h k : Int} :
    heightsOk (node.mk u l r h k) = true ↔
      h = 1 + maxInt (height l) (height r) ∧ heightsOk l = true ∧ heightsOk r = true := by
  simp [heightsOk, Bool.and_eq_true]

theorem lensOk_mk_iff {B : Type} {u : B} {l r : node B} {h k : Int} :
    lensOk (node.mk u l r h k) = true ↔
      k = 1 + length l + length r ∧ lensOk l = true ∧ lensOk r = true := by
  simp [lensOk, Bool.and_eq_true]

theorem balOk_mk_iff {B : Type} {u : B} {l r : node B} {h k : Int} :
    balOk (node.mk u l r h k) = true ↔
      (-1 ≤ height l - height r ∧ height l - height r ≤ 1) ∧
      balOk l = true ∧ balOk r = true := by
  simp [balOk, Bool.and_eq_true, and_assoc]

/-! Shape lemmas. -/

theorem height_of_strip {B : Type} {a b : node B} (hs : strip a = strip b) :
    height a = height b := by
  cases a <;> cases b <;> simp_all [strip, height]

theorem length_of_strip {B : Type} {a b : node B} (hs : strip a = strip b) :
    length a = length b := by
  cases a <;> cases b <;> simp_all [strip, length]

theorem sliceRecursive_eq {B : Type} (t : node B) :
    ∀ acc : List B, sliceRecursive t acc = acc ++ inorder t := by
  induction t with
  | nil => intro acc; simp [sliceRecursive, inorder]
  | mk v l r h k ihl ihr => intro acc; simp [sliceRecursive, inorder, ihl, ihr]

theorem Slice_eq_inorder {B : Type} (t : node B) : Slice ⟨t⟩ = inorder t := by
  simp [Slice, sliceRecursive_eq]

theorem map_upd_eq_self {B : Type} {cmp : B → B → Int} {v : B} :
    ∀ xs : List B, (∀ x ∈ xs, cmp v x ≠ 0) →
      xs.map (fun x => if cmp v x = 0 then v else x) = xs := by
  intro xs
  induction xs with
  | nil => intro _; simp
  | cons a rest ih =>
    intro hx
    have ha : cmp v a ≠ 0 := hx a (by simp)
    simp only [List.map_cons, if_neg ha, List.cons.injEq, true_and]
    exact ih fun x h1 => hx x (by simp [h1])

/-- Evaluation of `pushBalance` when the recomputed node is within the
AVL balance window: only the cached fields are recomputed, no rotation. -/
theorem pushBalance_no_rotation {B : Type} (cmp : B → B → Int) (v u : B)
    (l r : node B) (h k : Int)
    (hb1 : -1 ≤ height l - height r) (hb2 : height l - height r ≤ 1) :
    pushBalance cmp v (node.mk u l r h k)
      = node.mk u l r (1 + maxInt (height l) (height r)) (1 + length l + length r) := by
  simp only [pushBalance, balance]
  rw [if_neg (by omega), if_neg (by omega)]

/-- Master lemma for the in-place update claim: pushing a value that
compares equal to a stored value, on a tree satisfying the BST, cached
height/size and balance invariants, keeps the shape and the cached fields
of every node and only replaces the comparator-equal element in the
in-order sequence. -/
theorem push_mem_update {B : Type} {cmp : B → B → Int} (hc : IsTotalCmp B cmp) (v : B) :
    ∀ t : node B, Bst cmp t = true → heightsOk t = true → lensOk t = true → balOk t = true →
    ∀ w ∈ inorder t, cmp v w = 0 →
    strip (pushRecursive cmp v t) = strip t ∧
    inorder (pushRecursive cmp v t)
      = (inorder t).map (fun x => if cmp v x = 0 then v else x) := by
  intro t
  induction t with
  | nil =>
    intro _ _ _ _ w hw
    simp [inorder] at hw
  | mk u l r h k ihl ihr =>
    intro hb hh hl0 hba w hw h0
    obtain ⟨hbl, hbr, hbstl, hbstr⟩ := bst_mk_iff.mp hb
    obtain ⟨hh0, hhl, hhr⟩ := heightsOk_mk_iff.mp hh
    obtain ⟨hk0, hkl, hkr⟩ := lensOk_mk_iff.mp hl0
    obtain ⟨⟨hba1, hba2⟩, hbal, hbar⟩ := balOk_mk_iff.mp hba
    have hw3 : w ∈ inorder l ∨ w = u ∨ w ∈ inorder r := by simpa [inorder] using hw
    rcases lt_trichotomy (cmp v u) 0 with hvu | hvu | hvu
    · -- descent into the left subtree
      have hwl : w ∈ inorder l := by
        rcases hw3 with h1 | h1 | h1
        · exact h1
        · exfalso; rw [h1] at h0; omega
        · exfalso
          have h2 := cmp_lt_trans hc hvu (hbr w h1)
          omega
      obtain ⟨ihs, ihi⟩ := ihl hbstl hhl hkl hbal w hwl h0
      have hhe : height (pushRecursive cmp v l) = height l := height_of_strip ihs
      have hle : length (pushRecursive cmp v l) = length l := length_of_strip ihs
      have hstep : pushRecursive cmp v (node.mk u l r h k)
          = pushBalance cmp v (node.mk u (pushRecursive cmp v l) r h k) := by
        simp only [pushRecursive]
        rw [if_pos hvu]
      have hpb := pushBalance_no_rotation cmp v u (pushRecursive cmp v l) r h k
        (by rw [hhe]; omega) (by rw [hhe]; omega)
      rw [hstep, hpb, hhe, hle]
      rw [← hh0, ← hk0]
      constructor
      · simp [strip, ihs]
      · have hmr : (inorder r).map (fun x => if cmp v x = 0 then v else x) = inorder r :=
          map_upd_eq_self (inorder r) fun x hx => by
            have h2 := cmp_lt_trans hc hvu (hbr x hx)
            omega
        have hfu : (if cmp v u = 0 then v else u) = u := by rw [if_neg (by omega)]
        simp [inorder, ihi, hmr, hfu]
    · -- comparator tie at this node: in-place replacement
      have hstep : pushRecursive cmp v (node.mk u l r h k) = node.mk v l r h k := by
        simp only [pushRecursive]
        rw [if_neg (by omega), if_neg (by omega)]
      rw [hstep]
      constructor
      · simp [strip]
      · have hml : (inorder l).map (fun x => if cmp v x = 0 then v else x) = inorder l :=
          map_upd_eq_self (inorder l) fun x hx => by
            intro hvx
            have h2 := cmp_eq_lt_trans hc hvx (hbl x hx)
            omega
        have hmr : (inorder r).map (fun x => if cmp v x = 0 then v else x) = inorder r :=
          map_upd_eq_self (inorder r) fun x hx => by
            intro hvx
            have h2 := cmp_eq_lt_trans hc hvu (hbr x hx)
            omega
        have hfu : (if cmp v u = 0 then v else u) = v := by rw [if_pos hvu]
        simp [inorder, hml, hmr, hfu]
    · -- descent into the right subtree
      have hwr : w ∈ inorder r := by
        rcases hw3 with h1 | h1 | h1
        · exfalso
          have h2 := cmp_eq_lt_trans hc h0 (hbl w h1)
          omega
        · exfalso; rw [h1] at h0; omega
        · exact h1
      obtain ⟨ihs, ihi⟩ := ihr hbstr hhr hkr hbar w hwr h0
      have hhe : height (pushRecursive cmp v r) = height r := height_of_strip ihs
      have hle : length (pushRecursive cmp v r) = length r := length_of_strip ihs
      have hstep : pushRecursive cmp v (node.mk u l r h k)
          = pushBalance cmp v (node.mk u l (pushRecursive cmp v r) h k) := by
        simp only [pushRecursive]
        rw [if_neg (by omega), if_pos (by omega)]
      have hpb := pushBalance_no_rotation cmp v u l (pushRecursive cmp v r) h k
        (by rw [hhe]; omega) (by rw [hhe]; omega)
      rw [hstep, hpb, hhe, hle]
      rw [← hh0, ← hk0]
      constructor
      · simp [strip, ihs]
      · have hml : (inorder l).map (fun x => if cmp v x = 0 then v else x) = inorder l :=
          map_upd_eq_self (inorder l) fun x hx => by
            intro hvx
            have h2 := cmp_eq_lt_trans hc hvx (hbl x hx)
            omega
        have hfu : (if cmp v u = 0 then v else u) = u := by rw [if_neg (by omega)]
        simp [inorder, ihi, hml, hfu]

theorem Len_eq_length {B : Type} (t : node B) : Len ⟨t⟩ = length t := by
  cases t <;> rfl

/-- Claim C6.  On a set satisfying the data-model invariants (BST
property, correct cached fields, cached balance within the AVL window),
pushing a value `v` that compares equal (comparator result 0) to a stored
value `w` replaces the stored value in place: the shape and every cached
field are unchanged (so no node is created or removed and `Len` is
unchanged), and the in-order sequence is unchanged except that the
comparator-equal element is now `v`. -/
theorem push_existing_updates_in_place (B : Type) (cmp : B → B → Int)
    (hc : IsTotalCmp B cmp) (t : node B) (v w : B)
    (hb : Bst cmp t = true) (hh : heightsOk t = true) (hl : lensOk t = true)
    (hba : balOk t = true) (hw : w ∈ inorder t) (h0 : cmp v w = 0) :
    strip (pushRecursive cmp v t) = strip t ∧
    Len ⟨pushRecursive cmp v t⟩ = Len ⟨t⟩ ∧
    Slice ⟨pushRecursive cmp v t⟩
      = (Slice ⟨t⟩).map (fun x => if cmp v x = 0 then v else x) := by
  obtain ⟨h1, h2⟩ := push_mem_update hc v t hb hh hl hba w hw h0
  refine ⟨h1, ?_, ?_⟩
  · rw [Len_eq_length, Len_eq_length]
    exact length_of_strip h1
  · rw [Slice_eq_inorder, Slice_eq_inorder, h2]

/-- Witness for claim C6: in the three-node search tree `tP` over pair
values ordered by first component, pushing `(2, 99)` replaces the stored
`(2, 0)` in place, leaving shape, cached fields and `Len` unchanged. -/
theorem push_existing_updates_in_place_witness :
    strip (pushRecursive pcmp (some (2, 99)) tP) = strip tP ∧
    Len ⟨pushRecursive pcmp (some (2, 99)) tP⟩ = Len ⟨tP⟩ ∧
    Slice ⟨pushRecursive pcmp (some (2, 99)) tP⟩
      = [some (1, 0), some (2, 99), some (3, 0)] := by
  obtain ⟨h1, h2, h3⟩ := push_existing_updates_in_place (Option (Int × Int)) pcmp
    pcmp_total tP (some (2, 99)) (some (2, 0))
    (by decide) (by decide) (by decide) (by decide) (by decide) (by decide)
  exact ⟨h1, h2, h3.trans (by decide)⟩

/-! String-format lemmas. -/

theorem joinTrail_append (xs ys : List String) :
    joinTrail (xs ++ ys) = joinTrail xs ++ joinTrail ys := by
  induction xs with
  | nil => simp [joinTrail]
  | cons s rest ih => simp [joinTrail, ih]

theorem joinTrail_ne_nil (s : String) (rest : List String) :
    joinTrail (s :: rest) ≠ [] := by
  simp [joinTrail]

theorem stringRecursive_data {B : Type} (fmtV : B → String) (t : node B) :
    (stringRecursive fmtV t).data = joinTrail ((inorder t).map fmtV) := by
  induction t with
  | nil => rfl
  | mk v l r h k ihl ihr =>
    simp [stringRecursive, inorder, String.data_append, ihl, ihr,
      joinTrail_append, joinTrail]

theorem joinTrail_dropLast (l : List String) :
    (joinTrail l).dropLast = sepBySpace l := by
  induction l with
  | nil => rfl
  | cons s rest ih =>
    cases rest with
    | nil =>
      show (s.data ++ ' ' :: joinTrail []).dropLast = sepBySpace [s]
      simp [joinTrail, sepBySpace, List.dropLast_concat]
    | cons s2 rest2 =>
      show (s.data ++ ' ' :: joinTrail (s2 :: rest2)).dropLast = sepBySpace (s :: s2 :: rest2)
      rw [List.dropLast_append_of_ne_nil _ (by simp),
        List.dropLast_cons_of_ne_nil (joinTrail_ne_nil s2 rest2)]
      simp [sepBySpace, ih]

/-- Sortedness of the in-order sequence under the BST invariant. -/
theorem bst_inorder_pairwise {B : Type} {cmp : B → B → Int} (hc : IsTotalCmp B cmp) :
    ∀ t : node B, Bst cmp t = true →
      (inorder t).Pairwise fun a b => cmp a b < 0 := by
  intro t
  induction t with
  | nil => intro _; simp [inorder]
  | mk u l r h k ihl ihr =>
    intro hb
    obtain ⟨hbl, hbr, hbstl, hbstr⟩ := bst_mk_iff.mp hb
    rw [inorder, List.pairwise_append]
    refine ⟨ihl hbstl, ?_, ?_⟩
    · rw [List.pairwise_cons]
      exact ⟨hbr, ihr hbstr⟩
    · intro a ha b hb2
      rcases List.mem_cons.mp hb2 with h1 | h1
      · rw [h1]; exact hbl a ha
      · exact cmp_lt_trans hc (hbl a ha) (hbr b h1)

/-- Claim C10.  `String()` returns the opening bracket, the stored values
in in-order sequence separated by single spaces (no trailing space), and
the closing bracket; the empty set renders as the two-character string of
the brackets.  Under the BST invariant and a valid comparator the
in-order sequence is strictly ascending, so the rendered values are the
stored values in ascending order. -/
theorem string_format_bracketed (B : Type) (fmtV : B → String) (t : node B) :
    stringOf fmtV ⟨t⟩ = String.mk ('[' :: sepBySpace ((inorder t).map fmtV) ++ [']']) ∧
    stringOf fmtV (⟨.nil⟩ : SortedSet B) = "[]" ∧
    (∀ cmp : B → B → Int, IsTotalCmp B cmp → Bst cmp t = true →
      (inorder t).Pairwise fun a b => cmp a b < 0) := by
  refine ⟨?_, rfl, fun cmp hc hb => bst_inorder_pairwise hc t hb⟩
  cases t with
  | nil => rfl
  | mk v l r h k =>
    apply String.ext
    show (chopLast ("[" ++ stringRecursive fmtV (node.mk v l r h k)) ++ "]").data = _
    rw [String.data_append, chopLast, String.data_append]
    show (("[".data ++ (stringRecursive fmtV (node.mk v l r h k)).data).dropLast
        ++ "]".data) = _
    rw [stringRecursive_data]
    have hne : joinTrail ((inorder (node.mk v l r h k)).map fmtV) ≠ [] := by
      rw [inorder]
      simp only [List.map_append, List.map_cons, joinTrail_append]
      intro hemp
      rcases List.append_eq_nil.mp hemp with ⟨_, h2⟩
      exact joinTrail_ne_nil _ _ h2
    show (['['] ++ joinTrail ((inorder (node.mk v l r h k)).map fmtV)).dropLast
        ++ [']'] = _
    rw [List.dropLast_append_of_ne_nil _ hne, joinTrail_dropLast]
    simp

/-- Witness for claim C10 at the concrete two-element set `t12` and at a
BST over integers: the rendering is `"[1 2]"` and the in-order sequence
is strictly ascending. -/
theorem string_format_bracketed_witness :
    stringOf fmtOI ⟨t12⟩ = String.mk ('[' :: sepBySpace ((inorder t12).map fmtOI) ++ [']']) ∧
    stringOf fmtOI ⟨t12⟩ = "[1 2]" ∧
    (inorder t12).Pairwise fun a b => ocmp a b < 0 := by
  obtain ⟨h1, h2, h3⟩ := string_format_bracketed (Option Int) fmtOI t12
  exact ⟨h1, by decide, h3 ocmp ocmp_total (by decide)⟩

end sortedset
